import Mathlib

/-!
Verification development for the TikTok text-overlay layout engine
(`src/text-overlay.js`, `src/server.js`, `src/text-overlay-test.js`).

Strings are modelled as `List Char`; pixel quantities as exact rationals
(the source computes with JS numbers; all claims are order/exactness
properties that we settle over exact arithmetic).  The canvas text
measurer is an abstract parameter `m : List Char → ℚ`.
-/

/-- Whitespace test modelling the core of the JS `\s` character class
(space, tab, newline, carriage return, vertical tab, form feed). -/
def wsChar (c : Char) : Bool :=
  c = ' ' || c = '\t' || c = '\n' || c = '\r' || c = '\x0b' || c = '\x0c'

/-- Drop leading whitespace, as the left half of JS `String.trim`. -/
def trimLeft (l : List Char) : List Char := l.dropWhile wsChar

/-- Drop trailing whitespace, as the right half of JS `String.trim`. -/
def trimRight : List Char → List Char
  | [] => []
  | c :: rest =>
    match trimRight rest with
    | [] => if wsChar c then [] else [c]
    | r => c :: r

/-- JS `String.trim`: drop whitespace from both ends. -/
def trimChars (l : List Char) : List Char := trimRight (trimLeft l)

/-- JS `text.replace(/\\n/g, "\n")`: rewrite each (left-to-right,
non-overlapping) two-character backslash-n sequence to a newline. -/
def replaceEscapes : List Char → List Char
  | [] => []
  | [c] => [c]
  | a :: b :: rest =>
    if a = '\\' ∧ b = 'n' then '\n' :: replaceEscapes rest
    else a :: replaceEscapes (b :: rest)

/-- Helper for `splitChar`: returns the first segment and the remaining
segments separately, so the split is never the empty list. -/
def splitCharAux (c : Char) : List Char → List Char × List (List Char)
  | [] => ([], [])
  | a :: rest =>
    let r := splitCharAux c rest
    if a = c then ([], r.1 :: r.2) else (a :: r.1, r.2)

/-- JS `String.split` on a single separator character, keeping empty
segments (so splitting the empty string yields one empty segment). -/
def splitChar (c : Char) (l : List Char) : List (List Char) :=
  (splitCharAux c l).1 :: (splitCharAux c l).2

/-- JS `Array.join` with a one-character separator. -/
def joinChar (c : Char) : List (List Char) → List Char
  | [] => []
  | [w] => w
  | w :: v :: ws => w ++ c :: joinChar c (v :: ws)

/-- Helper for `collapseWs`; the flag records whether the previous
character belonged to a whitespace run already replaced by a space. -/
def collapseWsAux : Bool → List Char → List Char
  | _, [] => []
  | prevWs, c :: rest =>
    if wsChar c then
      if prevWs then collapseWsAux true rest else ' ' :: collapseWsAux true rest
    else c :: collapseWsAux false rest

/-- JS `text.replace(/\s+/g, " ")`: each maximal whitespace run becomes a
single space. -/
def collapseWs (l : List Char) : List Char := collapseWsAux false l

/-- JS `text.replace(/\n/g, " ")` applied characterwise. -/
def nlToSpace (c : Char) : Char := if c = '\n' then ' ' else c

/-- The whitespace normalisation at the head of `autoWrapLines`
(text-overlay.js lines 138-142): resolve escaped newlines, turn newlines
into spaces, collapse whitespace runs, trim the ends. -/
def normalizeWs (raw : List Char) : List Char :=
  trimChars (collapseWs ((replaceEscapes raw).map nlToSpace))

/-- Helper for `jsSplitWs`; `some acc` means a segment is being built
(characters held in reverse), `none` means we are inside a separator run. -/
def splitWsGo : Option (List Char) → List Char → List (List Char)
  | some acc, [] => [acc.reverse]
  | none, [] => [[]]
  | some acc, c :: rest =>
    if wsChar c then acc.reverse :: splitWsGo none rest
    else splitWsGo (some (c :: acc)) rest
  | none, c :: rest =>
    if wsChar c then splitWsGo none rest
    else splitWsGo (some [c]) rest

/-- JS `String.split(/\s+/)`: segments between maximal whitespace runs,
including the empty segments produced at a leading or trailing run. -/
def jsSplitWs (l : List Char) : List (List Char) := splitWsGo (some []) l

/-- The word cleaner of `balanceTextLines` (text-overlay-test.js lines
22-25): `text.trim().split(/\s+/).filter(word => word.length > 0)`. -/
def cleanWords (l : List Char) : List (List Char) :=
  (jsSplitWs (trimChars l)).filter (fun w => 0 < w.length)

/-- Proof-side helper (not a source function): the maximal
whitespace-free runs of a string, in order. -/
def splitWsRuns : List Char → List (List Char)
  | [] => []
  | c :: rest =>
    if wsChar c then splitWsRuns rest
    else (c :: rest.takeWhile (fun x => !wsChar x)) ::
      splitWsRuns (rest.dropWhile (fun x => !wsChar x))
termination_by l => l.length
decreasing_by
  · simp only [List.length_cons]; omega
  · simp only [List.length_cons]
    have := ((List.dropWhile_suffix (l := rest) (fun x => !wsChar x)).sublist).length_le
    omega

/-- A concrete text measurer used for witnesses: width = character count. -/
def charLen (l : List Char) : ℚ := (l.length : ℚ)

/-! ## Data model (text-overlay.js `initializeConfiguration`, lines 43-73) -/

/-- The `position` configuration enum. -/
inductive VertPos where
  | top
  | center
  | bottom
deriving DecidableEq

/-- The style configuration fields that the layout engine reads
(colors and shadow settings are purely cosmetic and never read by the
geometry computations, so they are omitted). -/
structure StyleConfig where
  width : ℚ
  height : ℚ
  fontSize : ℚ
  lineHeight : ℚ
  bubblePadding : ℚ
  horizontalPadding : ℚ
  bubbleRadius : ℚ
  maxWidth : ℚ
  position : VertPos
deriving DecidableEq

/-- The default configuration of text-overlay.js lines 44-72. -/
def defaultConfig : StyleConfig where
  width := 1024
  height := 1536
  fontSize := 65
  lineHeight := 6 / 5
  bubblePadding := 20
  horizontalPadding := 26
  bubbleRadius := 25
  maxWidth := 900
  position := .center

/-- `TIKTOK_SAFE_ZONES.right.x` (text-overlay.js line 19). -/
def safeZoneRightX : ℚ := 870

/-- `TIKTOK_SAFE_ZONES.bottom.y` (text-overlay.js line 20). -/
def safeZoneBottomY : ℚ := 1200

/-! ## Line splitters -/

/-- `/\n|\\n/.test(text)` helper: does the text contain the two-character
backslash-n sequence? -/
def hasEscSeq : List Char → Bool
  | [] => false
  | [_] => false
  | a :: b :: rest => (a = '\\' && b = 'n') || hasEscSeq (b :: rest)

/-- `/\n|\\n/.test(text)` (text-overlay.js lines 87 and 105): the caption
contains an explicit break marker, either a real newline or an escaped
one. -/
def hasExplicitBreaks (l : List Char) : Bool :=
  l.contains '\n' || hasEscSeq l

/-- `splitTextByNewlines` (text-overlay.js lines 10-14): resolve escaped
newlines, split on newlines, keep the segments that are non-empty after
trimming. -/
def splitTextByNewlines (l : List Char) : List (List Char) :=
  (splitChar '\n' (replaceEscapes l)).filter (fun s => 0 < (trimChars s).length)

/-- `getMaxBubbleWidthForAutoMode` (text-overlay.js lines 114-124). -/
def getMaxBubbleWidthForAutoMode (cfg : StyleConfig) : ℚ :=
  let centerX := cfg.width / 2
  let maxHalfWidthRight := safeZoneRightX - centerX
  let maxHalfWidthLeft := centerX - 0
  min maxHalfWidthRight maxHalfWidthLeft * 2

/-- The maximum text width of auto-wrap mode (text-overlay.js lines
147-150): bubble cap minus twice the horizontal padding, floored at 0. -/
def autoMaxTextWidth (cfg : StyleConfig) : ℚ :=
  max 0 (getMaxBubbleWidthForAutoMode cfg - 2 * cfg.horizontalPadding)

/-- The greedy word-wrap loop of `autoWrapLines` (text-overlay.js lines
152-179), with the accumulated lines and the current line as explicit
state. -/
def autoWrapGo (m : List Char → ℚ) (maxW : ℚ) :
    List (List Char) → List (List Char) → List Char → List (List Char)
  | [], lines, current => if current.isEmpty then lines else lines ++ [current]
  | w :: ws, lines, current =>
    let candidate := if current.isEmpty then w else current ++ ' ' :: w
    if m candidate ≤ maxW then autoWrapGo m maxW ws lines candidate
    else if current.isEmpty then autoWrapGo m maxW ws (lines ++ [w]) []
    else autoWrapGo m maxW ws (lines ++ [current]) w

/-- `autoWrapLines` (text-overlay.js lines 136-182), parametrised by the
text measurer `m`. -/
def autoWrapLines (m : List Char → ℚ) (cfg : StyleConfig) (raw : List Char) :
    List (List Char) :=
  let normalized := normalizeWs raw
  if normalized.isEmpty then []
  else autoWrapGo m (autoMaxTextWidth cfg) (splitChar ' ' normalized) [] []

/-- The line list of `calculateTextMetrics` (text-overlay.js lines
85-97): explicit-break splitting when break markers are present,
auto-wrap otherwise. -/
def calculateTextMetricsLines (m : List Char → ℚ) (cfg : StyleConfig)
    (text : List Char) : List (List Char) :=
  if hasExplicitBreaks text then splitTextByNewlines text
  else autoWrapLines m cfg text

/-- `previewBalancedText` of text-overlay.js lines 524-526: it always
returns the newline split, ignoring its options argument. -/
def previewBalancedText (text : List Char) : List (List Char) :=
  splitTextByNewlines text

/-! ## Layout (text-overlay.js lines 232-248 and 288-343) -/

/-- Per-line bubble height: `lineHeight + bubblePadding * 2` where
`lineHeight = fontSize * config.lineHeight` (lines 288-289). -/
def bubbleHeightQ (cfg : StyleConfig) : ℚ :=
  cfg.fontSize * cfg.lineHeight + cfg.bubblePadding * 2

/-- `totalBubbleHeight = lineCount * bubbleHeight - (lineCount - 1) * 10`
(lines 235-237 and 302-305); the subtraction is over JS numbers, so for
`lineCount = 0` it evaluates to `+10`. -/
def totalBubbleHeightQ (cfg : StyleConfig) (n : ℕ) : ℚ :=
  (n : ℚ) * bubbleHeightQ cfg - ((n : ℚ) - 1) * 10

/-- `calculateVerticalPosition` (text-overlay.js lines 232-248). -/
def calculateVerticalPosition (cfg : StyleConfig) (n : ℕ) : ℚ :=
  match cfg.position with
  | .top => cfg.height * (15 / 100)
  | .bottom => cfg.height * (85 / 100) - totalBubbleHeightQ cfg n
  | .center => (cfg.height - totalBubbleHeightQ cfg n) / 2

/-- The start Y before the safe-zone clamp: vertical position minus the
fixed 50px upward shift (text-overlay.js lines 293-298). -/
def preClampStartY (m : List Char → ℚ) (cfg : StyleConfig) (text : List Char) : ℚ :=
  calculateVerticalPosition cfg (calculateTextMetricsLines m cfg text).length - 50

/-- The start Y actually used for drawing, after the bottom safe-zone
clamp of auto-wrap mode (text-overlay.js lines 300-311). -/
def finalStartY (m : List Char → ℚ) (cfg : StyleConfig) (text : List Char) : ℚ :=
  let n := (calculateTextMetricsLines m cfg text).length
  let startY := preClampStartY m cfg text
  let blockBottom := startY + totalBubbleHeightQ cfg n
  if hasExplicitBreaks text = false ∧ 0 < n ∧ blockBottom > safeZoneBottomY then
    startY - (blockBottom - safeZoneBottomY)
  else startY

/-- One bubble rectangle as passed to `drawBubble`. -/
structure BubbleRect where
  x : ℚ
  y : ℚ
  width : ℚ
  height : ℚ
  radius : ℚ
deriving DecidableEq

/-- The bubble geometry of the drawing loop (text-overlay.js lines
314-336): per-line width from the measured text plus horizontal padding
(`extraPadding` is 0 for every line), fixed height, centered X, stacked Y
with the fixed `-10` gap, unclamped corner radius. -/
def layoutBubbles (m : List Char → ℚ) (cfg : StyleConfig) (text : List Char) :
    List BubbleRect :=
  (calculateTextMetricsLines m cfg text).enum.map fun p =>
    let bubbleWidth := m p.2 + cfg.horizontalPadding * 2
    let bubbleHeight := bubbleHeightQ cfg
    { x := (cfg.width - bubbleWidth) / 2
      y := finalStartY m cfg text + (p.1 : ℚ) * (bubbleHeight + (-10))
      width := bubbleWidth
      height := bubbleHeight
      radius := cfg.bubbleRadius }

/-! ## Server boundary (server.js `handleTextOverlay`, lines 157-238) -/

/-- The request fields the overlay handler validates. -/
structure OverlayRequest where
  file : Option (List Char)
  text : Option (List Char)

/-- The handler outcome: an input-validation error response, or a
successful render (carrying the computed layout geometry). -/
inductive OverlayResponse where
  | inputError : List Char → OverlayResponse
  | rendered : List BubbleRect → OverlayResponse
deriving DecidableEq

/-- `handleTextOverlay` (server.js lines 157-238): reject a missing file,
then a missing or blank caption, before any overlay computation; on
success the trimmed caption is laid out. -/
def handleTextOverlay (m : List Char → ℚ) (cfg : StyleConfig)
    (req : OverlayRequest) : OverlayResponse :=
  match req.file with
  | none => .inputError "No image file provided".toList
  | some _ =>
    match req.text with
    | none => .inputError "No text provided".toList
    | some t =>
      if (trimChars t).length = 0 then .inputError "No text provided".toList
      else .rendered (layoutBubbles m cfg (trimChars t))

/-! ## Balanced line packer (text-overlay-test.js lines 12-125) -/

/-- The options object of `balanceTextLines` with its defaults. -/
structure BalanceOptions where
  targetWordsPerLine : ℚ
  maxWordsPerLine : ℕ
  minWordsPerLine : ℕ
  maxCharVariance : ℚ
  preferShorterLines : Bool

/-- The default options (text-overlay-test.js lines 13-19). -/
def defaultBalanceOptions : BalanceOptions where
  targetWordsPerLine := 7 / 2
  maxWordsPerLine := 5
  minWordsPerLine := 2
  maxCharVariance := 3 / 10
  preferShorterLines := true

/-- The candidate group sizes `minWords..maxWords` tried by the
backtracking loop (text-overlay-test.js line 69). -/
def groupSizeRange (minW maxW : ℕ) : List ℕ :=
  if minW ≤ maxW then List.range' minW (maxW + 1 - minW) else []

/-- `generateArrangements` (text-overlay-test.js lines 59-83): all
partitions of the word list into contiguous groups whose sizes lie in
`minW..maxW`, each group already joined into a line, in the source's
depth-first order.  The source recursion does not terminate for a group
size of 0 with words remaining; that branch contributes no arrangements
here. -/
def generateArrangements (minW maxW : ℕ) (ws : List (List Char)) :
    List (List (List Char)) :=
  if hw : ws.isEmpty then [[]]
  else (groupSizeRange minW maxW).flatMap fun k =>
    if h : 0 < k ∧ k ≤ ws.length then
      (generateArrangements minW maxW (ws.drop k)).map
        (fun rest => joinChar ' ' (ws.take k) :: rest)
    else []
termination_by ws.length
decreasing_by
  simp only [List.length_drop]
  have h1 : 0 < ws.length := by
    cases ws
    · simp at hw
    · simp
  omega

/-- JS `Math.max` over a list known to be non-empty (defaulting to 0 on
the empty list, which the scorer never hits for the arrangements fed to
it). -/
def listMaxQ : List ℚ → ℚ
  | [] => 0
  | a :: t => t.foldl max a

/-- JS `Math.min` over a list, as `listMaxQ`. -/
def listMinQ : List ℚ → ℚ
  | [] => 0
  | a :: t => t.foldl min a

/-- `scoreArrangement` (text-overlay-test.js lines 88-125). -/
def scoreArrangement (lines : List (List Char)) (targetWords maxCharVariance : ℚ) : ℚ :=
  if lines.length = 0 then 0
  else
    let lineLengths : List ℚ := lines.map (fun line => (line.length : ℚ))
    let wordCounts : List ℚ := lines.map (fun line => ((splitChar ' ' line).length : ℚ))
    let avgLength := (lineLengths.foldl (· + ·) 0) / (lines.length : ℚ)
    let charVariance := listMaxQ lineLengths - listMinQ lineLengths
    let normalizedVariance := charVariance / avgLength
    let score1 := max 0 (100 - normalizedVariance * 200)
    let avgWords := (wordCounts.foldl (· + ·) 0) / (lines.length : ℚ)
    let wordDeviation := |avgWords - targetWords|
    let score2 := max 0 (50 - wordDeviation * 20)
    let wordVariance := listMaxQ wordCounts - listMinQ wordCounts
    let score3 := max 0 (30 - wordVariance * 10)
    let penalty := max 0 (((lines.length : ℚ) - 3) * 5)
    let idealBonus := wordCounts.foldl
      (fun bonus count => if 3 ≤ count ∧ count ≤ 4 then bonus + 10 else bonus) 0
    score1 + score2 + score3 - penalty + idealBonus

/-- `balanceTextLines` (text-overlay-test.js lines 12-54).  The source
calls `Array.reduce` with no initial value, which throws on an empty
array; that outcome is modelled as `none`. -/
def balanceTextLines (text : List Char) (opts : BalanceOptions) :
    Option (List (List Char)) :=
  let words := cleanWords text
  if words.length ≤ opts.maxWordsPerLine then some [joinChar ' ' words]
  else
    match generateArrangements opts.minWordsPerLine opts.maxWordsPerLine words with
    | [] => none
    | a :: rest =>
      some (rest.foldl
        (fun best current =>
          if scoreArrangement current opts.targetWordsPerLine opts.maxCharVariance >
             scoreArrangement best opts.targetWordsPerLine opts.maxCharVariance
          then current else best) a)

/-! ## Supporting lemmas -/

/-- The concrete measurer is nonnegative. -/
theorem charLen_nonneg (s : List Char) : 0 ≤ charLen s := by
  unfold charLen
  exact_mod_cast Nat.zero_le s.length

/-- Consecutive entries of an index-enumerated list have successive
indices. -/
theorem chain'_enumFrom_succ {α : Type} (n : ℕ) (l : List α) :
    List.Chain' (fun p q : ℕ × α => q.1 = p.1 + 1) (List.enumFrom n l) := by
  induction l generalizing n with
  | nil => simp
  | cons a t ih =>
    cases t with
    | nil => simp
    | cons b t2 =>
      rw [List.enumFrom]
      exact List.Chain'.cons (by simp) (ih (n + 1))

/-! ## Claim C5: bottom safe-zone clamp in auto-wrap mode -/

/-- C5: in auto-wrap mode with at least one line, when the block bottom
`preClampStartY + totalBubbleHeight` exceeds the bottom safe-zone
boundary, the start Y is decreased by exactly the overflow so the final
block bottom equals the boundary; the start is never moved downward; no
clamp is applied in explicit-break mode. -/
theorem c5_autoWrapBottomClamp (m : List Char → ℚ) (cfg : StyleConfig)
    (text : List Char) :
    (hasExplicitBreaks text = false →
      0 < (calculateTextMetricsLines m cfg text).length →
      preClampStartY m cfg text +
        totalBubbleHeightQ cfg (calculateTextMetricsLines m cfg text).length >
        safeZoneBottomY →
      finalStartY m cfg text =
        preClampStartY m cfg text -
          (preClampStartY m cfg text +
            totalBubbleHeightQ cfg (calculateTextMetricsLines m cfg text).length -
            safeZoneBottomY) ∧
      finalStartY m cfg text +
        totalBubbleHeightQ cfg (calculateTextMetricsLines m cfg text).length =
        safeZoneBottomY) ∧
    finalStartY m cfg text ≤ preClampStartY m cfg text ∧
    (hasExplicitBreaks text = true →
      finalStartY m cfg text = preClampStartY m cfg text) := by
  refine ⟨?_, ?_, ?_⟩
  · intro h1 h2 h3
    simp only [finalStartY]
    split
    · constructor
      · ring
      · ring
    · rename_i hc
      exact absurd ⟨h1, h2, h3⟩ hc
  · simp only [finalStartY]
    split
    · rename_i hc
      have h3 := hc.2.2
      linarith
    · exact le_refl _
  · intro h1
    simp only [finalStartY]
    split
    · rename_i hc
      rw [h1] at hc
      exact absurd hc.1 (by simp)
    · rfl

/-- Witness for C5 at a concrete overflowing auto-wrap input
(bottom-positioned default configuration, caption with no break
markers). -/
theorem c5_autoWrapBottomClamp_witness :
    hasExplicitBreaks "hello".toList = false ∧
    0 < (calculateTextMetricsLines charLen
      { defaultConfig with position := VertPos.bottom } "hello".toList).length ∧
    preClampStartY charLen { defaultConfig with position := VertPos.bottom }
        "hello".toList +
      totalBubbleHeightQ { defaultConfig with position := VertPos.bottom }
        (calculateTextMetricsLines charLen
          { defaultConfig with position := VertPos.bottom } "hello".toList).length >
      safeZoneBottomY ∧
    finalStartY charLen { defaultConfig with position := VertPos.bottom }
        "hello".toList +
      totalBubbleHeightQ { defaultConfig with position := VertPos.bottom }
        (calculateTextMetricsLines charLen
          { defaultConfig with position := VertPos.bottom } "hello".toList).length =
      safeZoneBottomY :=
  ⟨by with_unfolding_all decide, by with_unfolding_all decide, by with_unfolding_all decide,
    ((c5_autoWrapBottomClamp charLen
      { defaultConfig with position := VertPos.bottom } "hello".toList).1
      (by with_unfolding_all decide) (by with_unfolding_all decide) (by with_unfolding_all decide)).2⟩

/-! ## Claim C7: balanced packer short-circuit -/

/-- C7: when the cleaned word count is at most `maxWordsPerLine`,
`balanceTextLines` returns exactly one line joining all words, without
consulting the arrangement enumeration. -/
theorem c7_balanceShortCircuit (text : List Char) (opts : BalanceOptions)
    (h : (cleanWords text).length ≤ opts.maxWordsPerLine) :
    balanceTextLines text opts = some [joinChar ' ' (cleanWords text)] := by
  rw [balanceTextLines]
  simp only [if_pos h]

/-- Witness for C7 on a two-word caption under the default options. -/
theorem c7_balanceShortCircuit_witness :
    (cleanWords "hello world".toList).length ≤
      defaultBalanceOptions.maxWordsPerLine ∧
    balanceTextLines "hello world".toList defaultBalanceOptions =
      some [joinChar ' ' (cleanWords "hello world".toList)] :=
  ⟨by with_unfolding_all decide, c7_balanceShortCircuit "hello world".toList defaultBalanceOptions
    (by with_unfolding_all decide)⟩

/-! ## Claim C8: empty caption is rejected before layout -/

/-- C8: a caption that is empty or whitespace-only makes the overlay
handler answer with an input error; the rendered branch (the only one
that computes a layout) is not taken. -/
theorem c8_emptyCaptionRejected (m : List Char → ℚ) (cfg : StyleConfig)
    (req : OverlayRequest) (t : List Char)
    (ht : req.text = some t) (hblank : trimChars t = []) :
    ∃ msg, handleTextOverlay m cfg req = OverlayResponse.inputError msg := by
  rw [handleTextOverlay]
  cases hf : req.file with
  | none => exact ⟨_, rfl⟩
  | some f =>
    rw [ht]
    simp only [hblank, List.length_nil]
    exact ⟨_, rfl⟩

/-- Witness for C8 on a whitespace-only caption with a file present. -/
theorem c8_emptyCaptionRejected_witness :
    trimChars "   ".toList = [] ∧
    ∃ msg, handleTextOverlay charLen defaultConfig
      ⟨some "img".toList, some "   ".toList⟩ = OverlayResponse.inputError msg :=
  ⟨by with_unfolding_all decide, c8_emptyCaptionRejected charLen defaultConfig
    ⟨some "img".toList, some "   ".toList⟩ "   ".toList rfl (by with_unfolding_all decide)⟩

/-! ## Claim C2: preview versus render line lists -/

/-- C2 counterexample: for a caption with no break markers the preview
entry point keeps the raw text as one line while the render path
auto-wraps the normalised text, so the two line lists differ. -/
theorem c2_previewRender_counterexample :
    previewBalancedText "a  b".toList ≠
      calculateTextMetricsLines charLen defaultConfig "a  b".toList := by
  with_unfolding_all decide

/-- C2 amended: `previewBalancedText` always applies the explicit-break
splitter, so the preview line list equals the render line list exactly
when the caption contains break markers. -/
theorem c2_previewRender_amended (m : List Char → ℚ) (cfg : StyleConfig)
    (text : List Char) (h : hasExplicitBreaks text = true) :
    previewBalancedText text = calculateTextMetricsLines m cfg text := by
  rw [previewBalancedText, calculateTextMetricsLines, if_pos h]

/-- Witness for the amended C2 on a caption with an explicit break. -/
theorem c2_previewRender_amended_witness :
    hasExplicitBreaks "a\nb".toList = true ∧
    previewBalancedText "a\nb".toList =
      calculateTextMetricsLines charLen defaultConfig "a\nb".toList :=
  ⟨by with_unfolding_all decide, c2_previewRender_amended charLen defaultConfig "a\nb".toList
    (by with_unfolding_all decide)⟩

/-! ## Claim C3: bubble corner radius bound -/

/-- C3 counterexample: with a valid configuration (positive dimensions,
nonnegative paddings) whose font size is small, the unclamped corner
radius exceeds half of the bubble height, so not every drawn bubble
satisfies the bound. -/
theorem c3_radiusBound_counterexample :
    ((layoutBubbles charLen { defaultConfig with fontSize := 5 } "hi".toList).all
      fun b => decide (b.radius ≤ min b.width b.height / 2)) = false := by
  with_unfolding_all decide

/-- C3 amended: the renderer passes `config.bubbleRadius` to `drawBubble`
unclamped, so the bound holds exactly when the configuration keeps the
radius at most the horizontal padding and at most half the bubble height
(both true of the default configuration), for any nonnegative measurer. -/
theorem c3_radiusBound_amended (m : List Char → ℚ) (cfg : StyleConfig)
    (text : List Char) (b : BubbleRect)
    (hm : ∀ s, 0 ≤ m s)
    (h1 : cfg.bubbleRadius ≤ cfg.horizontalPadding)
    (h2 : 2 * cfg.bubbleRadius ≤ bubbleHeightQ cfg)
    (hb : b ∈ layoutBubbles m cfg text) :
    b.radius ≤ min b.width b.height / 2 := by
  rw [layoutBubbles] at hb
  obtain ⟨p, hp, rfl⟩ := List.mem_map.mp hb
  simp only
  have hw : 2 * cfg.bubbleRadius ≤ m p.2 + cfg.horizontalPadding * 2 := by
    have := hm p.2
    linarith
  have hmin := le_min hw h2
  linarith [hmin]

set_option maxRecDepth 8000

/-- Witness for the amended C3: the single bubble laid out for the
caption "hi" under the default configuration. -/
theorem c3_radiusBound_amended_witness :
    (⟨485, 659, 54, 118, 25⟩ : BubbleRect) ∈
      layoutBubbles charLen defaultConfig "hi".toList ∧
    (⟨485, 659, 54, 118, 25⟩ : BubbleRect).radius ≤
      min (⟨485, 659, 54, 118, 25⟩ : BubbleRect).width
        (⟨485, 659, 54, 118, 25⟩ : BubbleRect).height / 2 :=
  ⟨by with_unfolding_all decide,
    c3_radiusBound_amended charLen defaultConfig "hi".toList _
      charLen_nonneg (by with_unfolding_all decide) (by with_unfolding_all decide)
      (by with_unfolding_all decide)⟩

/-! ## Claim C4: vertical order of the bubble stack -/

/-- C4 counterexample: with a valid configuration (positive dimensions,
nonnegative paddings) whose bubble height is below the fixed 10px
overlap, consecutive bubbles appear in inverted vertical order. -/
theorem c4_verticalOrder_counterexample :
    ¬ List.Chain' (fun a b : BubbleRect => a.y < b.y)
      (layoutBubbles charLen
        { defaultConfig with
            fontSize := 4, lineHeight := 1, bubblePadding := 0,
            horizontalPadding := 0, bubbleRadius := 0 }
        "a\nb".toList) := by
  have h : layoutBubbles charLen
      { defaultConfig with
          fontSize := 4, lineHeight := 1, bubblePadding := 0,
          horizontalPadding := 0, bubbleRadius := 0 }
      "a\nb".toList =
      [⟨1023 / 2, 719, 1, 4, 0⟩, ⟨1023 / 2, 713, 1, 4, 0⟩] := by
    with_unfolding_all decide
  rw [h]
  intro hch
  have hlt := (List.chain'_cons.mp hch).1
  simp only at hlt
  norm_num at hlt

/-- C4 amended: whenever the per-line bubble height exceeds the fixed
10px overlap (true of the default configuration), consecutive bubbles
are in strictly increasing vertical order for every caption and
measurer. -/
theorem c4_verticalOrder_amended (m : List Char → ℚ) (cfg : StyleConfig)
    (text : List Char) (h : 10 < bubbleHeightQ cfg) :
    List.Chain' (fun a b : BubbleRect => a.y < b.y)
      (layoutBubbles m cfg text) := by
  rw [layoutBubbles]
  rw [List.chain'_map]
  refine List.Chain'.imp ?_ (chain'_enumFrom_succ 0 (calculateTextMetricsLines m cfg text))
  intro p q hpq
  simp only [hpq]
  push_cast
  nlinarith [h]

/-- Witness for the amended C4 on a two-line auto-wrapped caption under
the default configuration. -/
theorem c4_verticalOrder_amended_witness :
    10 < bubbleHeightQ defaultConfig ∧
    List.Chain' (fun a b : BubbleRect => a.y < b.y)
      (layoutBubbles (fun l => (l.length : ℚ) * 300) defaultConfig
        "aaa bbb".toList) :=
  ⟨by with_unfolding_all decide,
    c4_verticalOrder_amended (fun l => (l.length : ℚ) * 300) defaultConfig
      "aaa bbb".toList (by with_unfolding_all decide)⟩

/-! ## Claim C1: auto-wrap width bound -/

/-- Segments produced by `splitCharAux` never contain the separator. -/
theorem splitCharAux_sep_not_mem (c : Char) (l : List Char) :
    c ∉ (splitCharAux c l).1 ∧ ∀ w ∈ (splitCharAux c l).2, c ∉ w := by
  induction l with
  | nil => simp [splitCharAux]
  | cons a rest ih =>
    simp only [splitCharAux]
    by_cases h : a = c
    · simp only [if_pos h]
      refine ⟨List.not_mem_nil c, ?_⟩
      intro w hw
      rcases List.mem_cons.mp hw with rfl | hw
      · exact ih.1
      · exact ih.2 w hw
    · simp only [if_neg h]
      refine ⟨?_, ih.2⟩
      intro hc
      rcases List.mem_cons.mp hc with rfl | hc
      · exact h rfl
      · exact ih.1 hc

/-- Segments produced by `splitChar` never contain the separator. -/
theorem mem_splitChar_sep_not_mem {c : Char} {l : List Char} {w : List Char}
    (hw : w ∈ splitChar c l) : c ∉ w := by
  rw [splitChar] at hw
  rcases List.mem_cons.mp hw with rfl | hw
  · exact (splitCharAux_sep_not_mem c l).1
  · exact (splitCharAux_sep_not_mem c l).2 w hw

/-- Invariant of the greedy wrap loop: if every accumulated line is
within the bound or space-free, the current line is empty, within the
bound, or space-free, and the remaining words are space-free, then every
produced line is within the bound or space-free. -/
theorem autoWrapGo_width_inv (m : List Char → ℚ) (maxW : ℚ) :
    ∀ (ws lines : List (List Char)) (current : List Char),
      (∀ w ∈ ws, ' ' ∉ w) →
      (∀ l ∈ lines, m l ≤ maxW ∨ ' ' ∉ l) →
      (current = [] ∨ m current ≤ maxW ∨ ' ' ∉ current) →
      ∀ l ∈ autoWrapGo m maxW ws lines current, m l ≤ maxW ∨ ' ' ∉ l := by
  intro ws
  induction ws with
  | nil =>
    intro lines current hws hlines hcur l hl
    rw [autoWrapGo] at hl
    split at hl
    · exact hlines l hl
    · rename_i hne
      rcases List.mem_append.mp hl with h | h
      · exact hlines l h
      · rw [List.mem_singleton] at h
        subst h
        rcases hcur with rfl | h
        · simp at hne
        · exact h
  | cons w ws ih =>
    intro lines current hws hlines hcur l hl
    have hws' : ∀ x ∈ ws, ' ' ∉ x := fun x hx => hws x (List.mem_cons_of_mem w hx)
    have hwfree : ' ' ∉ w := hws w (List.mem_cons_self w ws)
    simp only [autoWrapGo] at hl
    by_cases hemp : current.isEmpty = true
    · rw [if_pos hemp] at hl
      split at hl
      · rename_i hcand
        exact ih lines w hws' hlines (Or.inr (Or.inl hcand)) l hl
      · refine ih (lines ++ [w]) [] hws' ?_ (Or.inl rfl) l hl
        intro x hx
        rcases List.mem_append.mp hx with h | h
        · exact hlines x h
        · rw [List.mem_singleton] at h
          subst h
          exact Or.inr hwfree
    · rw [if_neg hemp] at hl
      split at hl
      · rename_i hcand
        exact ih lines _ hws' hlines (Or.inr (Or.inl hcand)) l hl
      · refine ih (lines ++ [current]) w hws' ?_ (Or.inr (Or.inr hwfree)) l hl
        intro x hx
        rcases List.mem_append.mp hx with h | h
        · exact hlines x h
        · rw [List.mem_singleton] at h
          subst h
          rcases hcur with rfl | h
          · simp at hemp
          · exact h

/-- C1: assuming the measurer is monotone under appending a word, every
line of `autoWrapLines` for a caption with no break markers is within
the computed maximum text width
`max 0 (2 * min (rightSafeZoneX - width / 2) (width / 2) - 2 * horizontalPadding)`,
except possibly a line consisting of a single word (no interior space),
which is allowed to overflow. -/
theorem c1_autoWrapWidthBound (m : List Char → ℚ) (cfg : StyleConfig)
    (raw line : List Char)
    (hmono : ∀ s w, m s ≤ m (s ++ ' ' :: w))
    (hnb : hasExplicitBreaks raw = false)
    (hmem : line ∈ autoWrapLines m cfg raw) :
    m line ≤
      max 0 (2 * min (safeZoneRightX - cfg.width / 2) (cfg.width / 2) -
        2 * cfg.horizontalPadding) ∨
      ' ' ∉ line := by
  have hfor : autoMaxTextWidth cfg =
      max 0 (2 * min (safeZoneRightX - cfg.width / 2) (cfg.width / 2) -
        2 * cfg.horizontalPadding) := by
    rw [autoMaxTextWidth, getMaxBubbleWidthForAutoMode]
    ring_nf
  rw [← hfor]
  rw [autoWrapLines] at hmem
  split at hmem
  · simp at hmem
  · refine autoWrapGo_width_inv m (autoMaxTextWidth cfg) _ [] [] ?_ ?_ ?_ line hmem
    · intro w hw
      exact mem_splitChar_sep_not_mem hw
    · intro x hx
      simp at hx
    · exact Or.inl rfl

/-- Witness for C1 with the character-count measurer on a two-word
caption under the default configuration. -/
theorem c1_autoWrapWidthBound_witness :
    hasExplicitBreaks "hello world".toList = false ∧
    "hello world".toList ∈
      autoWrapLines charLen defaultConfig "hello world".toList ∧
    (charLen "hello world".toList ≤
      max 0 (2 * min (safeZoneRightX - defaultConfig.width / 2)
        (defaultConfig.width / 2) - 2 * defaultConfig.horizontalPadding) ∨
      ' ' ∉ "hello world".toList) :=
  ⟨by with_unfolding_all decide, by with_unfolding_all decide,
    c1_autoWrapWidthBound charLen defaultConfig "hello world".toList
      "hello world".toList
      (fun s w => by
        unfold charLen
        rw [List.length_append]
        push_cast
        have := Nat.cast_nonneg (α := ℚ) w.length
        linarith)
      (by with_unfolding_all decide) (by with_unfolding_all decide)⟩

/-! ## Claim C10: totality of the balanced packer -/

/-- With the default group bounds 2..5, the arrangement enumeration is
non-empty for every word list of length at least 2. -/
theorem generateArrangements_ne_nil :
    ∀ (n : ℕ) (ws : List (List Char)), ws.length = n → 2 ≤ n →
      generateArrangements 2 5 ws ≠ [] := by
  intro n
  induction n using Nat.strong_induction_on with
  | _ n ih =>
    intro ws hlen h2
    have hne : ¬ ws.isEmpty = true := by
      cases ws with
      | nil => simp at hlen; omega
      | cons a t => simp
    rw [generateArrangements, dif_neg hne]
    have hrange : groupSizeRange 2 5 = [2, 3, 4, 5] := by
      with_unfolding_all decide
    rw [hrange]
    intro hempty
    by_cases hsmall : n ≤ 5
    · have hk : n ∈ [2, 3, 4, 5] := by
        interval_cases n <;> simp
      have := List.flatMap_eq_nil_iff.mp hempty n hk
      rw [dif_pos ⟨by omega, by omega⟩] at this
      rw [← hlen, List.drop_length] at this
      rw [generateArrangements] at this
      simp at this
    · have hk : (2 : ℕ) ∈ [2, 3, 4, 5] := by simp
      have := List.flatMap_eq_nil_iff.mp hempty 2 hk
      rw [dif_pos ⟨by omega, by omega⟩] at this
      rw [List.map_eq_nil_iff] at this
      refine ih (ws.drop 2).length ?_ (ws.drop 2) rfl ?_ this
      · rw [List.length_drop]
        omega
      · rw [List.length_drop]
        omega

/-- C10: with the default packer options, an input of more than
`maxWordsPerLine` cleaned words always yields a non-empty arrangement
list, so the best-arrangement reduction is never applied to an empty
array and the packer always returns a result. -/
theorem c10_balanceTotal (text : List Char)
    (h : defaultBalanceOptions.maxWordsPerLine < (cleanWords text).length) :
    generateArrangements defaultBalanceOptions.minWordsPerLine
      defaultBalanceOptions.maxWordsPerLine (cleanWords text) ≠ [] ∧
    ∃ r, balanceTextLines text defaultBalanceOptions = some r := by
  have h5 : (5 : ℕ) < (cleanWords text).length := h
  have hgen : generateArrangements 2 5 (cleanWords text) ≠ [] :=
    generateArrangements_ne_nil (cleanWords text).length (cleanWords text) rfl
      (by omega)
  refine ⟨hgen, ?_⟩
  rw [balanceTextLines]
  rw [if_neg (by exact not_le.mpr h)]
  rcases hcase : generateArrangements defaultBalanceOptions.minWordsPerLine
      defaultBalanceOptions.maxWordsPerLine (cleanWords text) with _ | ⟨a, rest⟩
  · exact absurd hcase hgen
  · exact ⟨_, rfl⟩

/-- Witness for C10 on a caption with six words. -/
theorem c10_balanceTotal_witness :
    defaultBalanceOptions.maxWordsPerLine <
      (cleanWords "a b c d e f".toList).length ∧
    ∃ r, balanceTextLines "a b c d e f".toList defaultBalanceOptions = some r :=
  ⟨by with_unfolding_all decide,
    (c10_balanceTotal "a b c d e f".toList (by with_unfolding_all decide)).2⟩

/-! ## Claim C6: explicit-break splitter exactness and idempotence -/

/-- The raw segments between break markers: escaped newlines resolved,
then split at every newline, before the blank-segment filter. -/
def newlineSegments (l : List Char) : List (List Char) :=
  splitChar '\n' (replaceEscapes l)

/-- Adjacent characters `a, b` do not form an escaped-newline pair. -/
def noEscPair (a b : Char) : Prop := ¬(a = '\\' ∧ b = 'n')

/-- The output of `replaceEscapes` contains no remaining escaped-newline
pair. -/
theorem replaceEscapes_noEsc : ∀ l : List Char,
    List.Chain' noEscPair (replaceEscapes l)
  | [] => by simp [replaceEscapes]
  | [c] => by simp [replaceEscapes]
  | a :: b :: rest => by
    rw [replaceEscapes]
    split
    · rw [List.chain'_cons']
      refine ⟨?_, replaceEscapes_noEsc rest⟩
      intro x hx
      rw [noEscPair]
      intro ⟨h1, h2⟩
      exact absurd h1 (by decide)
    · rename_i hcond
      rw [List.chain'_cons']
      refine ⟨?_, replaceEscapes_noEsc (b :: rest)⟩
      intro x hx
      have hx' : x = '\n' ∨ x = b := by
        cases rest with
        | nil =>
          rw [replaceEscapes] at hx
          simp at hx
          right
          exact hx.symm
        | cons r rest2 =>
          rw [replaceEscapes] at hx
          revert hx
          split
          · intro hx
            simp at hx
            left
            exact hx.symm
          · intro hx
            simp at hx
            right
            exact hx.symm
      rw [noEscPair]
      intro ⟨h1, h2⟩
      rcases hx' with rfl | rfl
      · exact absurd h2 (by decide)
      · exact hcond ⟨h1, h2⟩
termination_by l => l.length

/-- `replaceEscapes` is the identity on strings with no escaped-newline
pair. -/
theorem replaceEscapes_eq_self : ∀ l : List Char,
    List.Chain' noEscPair l → replaceEscapes l = l
  | [] => by intro _; rfl
  | [c] => by intro _; rfl
  | a :: b :: rest => by
    intro h
    rw [replaceEscapes]
    have hab : noEscPair a b := (List.chain'_cons.mp h).1
    rw [if_neg (by rw [noEscPair] at hab; exact hab)]
    rw [replaceEscapes_eq_self (b :: rest) h.tail]
termination_by l => l.length

/-- Splitting preserves chains: both the first segment and every later
segment of `splitCharAux` are chains whenever the input is. -/
theorem chain'_splitCharAux (R : Char → Char → Prop) (c : Char) :
    ∀ l : List Char, List.Chain' R l →
      List.Chain' R (splitCharAux c l).1 ∧
      ∀ w ∈ (splitCharAux c l).2, List.Chain' R w := by
  intro l
  induction l with
  | nil => simp [splitCharAux]
  | cons a rest ih =>
    intro h
    obtain ⟨ih1, ih2⟩ := ih h.tail
    simp only [splitCharAux]
    by_cases hac : a = c
    · simp only [if_pos hac]
      refine ⟨List.chain'_nil, ?_⟩
      intro w hw
      rcases List.mem_cons.mp hw with rfl | hw
      · exact ih1
      · exact ih2 w hw
    · simp only [if_neg hac]
      refine ⟨?_, ih2⟩
      rw [List.chain'_cons']
      refine ⟨?_, ih1⟩
      intro b hb
      cases rest with
      | nil => simp [splitCharAux] at hb
      | cons r rest2 =>
        simp only [splitCharAux] at hb
        by_cases hrc : r = c
        · simp [if_pos hrc] at hb
        · simp only [if_neg hrc] at hb
          simp at hb
          subst hb
          exact (List.chain'_cons.mp h).1

/-- Every segment of `splitChar` inherits a chain from the input. -/
theorem chain'_of_mem_splitChar {R : Char → Char → Prop} {c : Char}
    {l w : List Char} (hl : List.Chain' R l) (hw : w ∈ splitChar c l) :
    List.Chain' R w := by
  rw [splitChar] at hw
  rcases List.mem_cons.mp hw with rfl | hw
  · exact (chain'_splitCharAux R c l hl).1
  · exact (chain'_splitCharAux R c l hl).2 w hw

/-- Joining chains with a separator that relates to everything on both
sides yields a chain. -/
theorem chain'_joinChar (R : Char → Char → Prop) (c : Char)
    (hl : ∀ a, R a c) (hr : ∀ b, R c b) :
    ∀ ws : List (List Char), (∀ w ∈ ws, List.Chain' R w) →
      List.Chain' R (joinChar c ws)
  | [] => by intro _; simp [joinChar]
  | [w] => by
    intro h
    rw [joinChar]
    exact h w (List.mem_cons_self w [])
  | w :: v :: ws => by
    intro h
    rw [joinChar]
    rw [List.chain'_append]
    refine ⟨h w (List.mem_cons_self w _), ?_, ?_⟩
    · rw [List.chain'_cons']
      refine ⟨fun b _ => hr b, ?_⟩
      exact chain'_joinChar R c hl hr (v :: ws)
        (fun x hx => h x (List.mem_cons_of_mem w hx))
    · intro x _ y hy
      rw [List.head?_cons, Option.mem_some_iff] at hy
      subst hy
      exact hl x

/-- On a separator-free string the splitter helper returns the whole
string as the single first segment. -/
theorem splitCharAux_of_not_mem {c : Char} : ∀ {w : List Char}, c ∉ w →
    splitCharAux c w = (w, []) := by
  intro w
  induction w with
  | nil => intro _; rfl
  | cons a rest ih =>
    intro h
    have hne : ¬ a = c := fun hac => h (List.mem_cons.mpr (Or.inl hac.symm))
    have hrec := ih (fun hm => h (List.mem_cons_of_mem a hm))
    simp [splitCharAux, hne, hrec]

/-- Splitting after a separator-free prefix and an explicit separator
recovers the prefix as the first segment. -/
theorem splitCharAux_append_sep {c : Char} : ∀ {w t : List Char}, c ∉ w →
    splitCharAux c (w ++ c :: t) =
      (w, (splitCharAux c t).1 :: (splitCharAux c t).2) := by
  intro w
  induction w with
  | nil =>
    intro t _
    simp [splitCharAux]
  | cons a rest ih =>
    intro t h
    have hne : ¬ a = c := fun hac => h (List.mem_cons.mpr (Or.inl hac.symm))
    have hrec := ih (t := t) (fun hm => h (List.mem_cons_of_mem a hm))
    simp [splitCharAux, hne, hrec]

/-- Splitting a separator-joined list of separator-free words recovers
the words. -/
theorem splitChar_joinChar {c : Char} : ∀ ws : List (List Char),
    ws ≠ [] → (∀ w ∈ ws, c ∉ w) → splitChar c (joinChar c ws) = ws
  | [] => by intro h _; exact absurd rfl h
  | [w] => by
    intro _ h
    rw [joinChar, splitChar]
    rw [splitCharAux_of_not_mem (h w (List.mem_cons_self w []))]
  | w :: v :: ws => by
    intro _ h
    rw [joinChar, splitChar]
    rw [splitCharAux_append_sep (h w (List.mem_cons_self w _))]
    have ih := splitChar_joinChar (v :: ws) (by simp)
      (fun x hx => h x (List.mem_cons_of_mem w hx))
    rw [splitChar] at ih
    rw [show ((splitCharAux c (joinChar c (v :: ws))).1 ::
        (splitCharAux c (joinChar c (v :: ws))).2) = v :: ws from ih]

/-- C6: `splitTextByNewlines` returns exactly the marker-separated
segments whose trimmed form is non-empty, as a subsequence of the raw
segment list (original order, interior whitespace untouched), and it is
idempotent when reapplied to its own output joined by a single newline
marker. -/
theorem c6_splitTextExactIdempotent (l : List Char) :
    splitTextByNewlines l =
      (newlineSegments l).filter (fun s => 0 < (trimChars s).length) ∧
    List.Sublist (splitTextByNewlines l) (newlineSegments l) ∧
    splitTextByNewlines (joinChar '\n' (splitTextByNewlines l)) =
      splitTextByNewlines l := by
  refine ⟨rfl, List.filter_sublist _, ?_⟩
  rcases hsegs : splitTextByNewlines l with _ | ⟨s, ss⟩
  · rfl
  · have hprop : ∀ w ∈ s :: ss,
        w ∈ splitChar '\n' (replaceEscapes l) ∧
        decide (0 < (trimChars w).length) = true := by
      rw [← hsegs]
      intro w hw
      rw [splitTextByNewlines] at hw
      exact List.mem_filter.mp hw
    have hnl : ∀ w ∈ s :: ss, '\n' ∉ w :=
      fun w hw => mem_splitChar_sep_not_mem (hprop w hw).1
    have hne : ∀ w ∈ s :: ss, List.Chain' noEscPair w :=
      fun w hw => chain'_of_mem_splitChar (replaceEscapes_noEsc l) (hprop w hw).1
    have step1 : replaceEscapes (joinChar '\n' (s :: ss)) =
        joinChar '\n' (s :: ss) := by
      apply replaceEscapes_eq_self
      apply chain'_joinChar noEscPair '\n' ?_ ?_ (s :: ss) hne
      · intro a
        rw [noEscPair]
        intro ⟨_, h2⟩
        exact absurd h2 (by decide)
      · intro b
        rw [noEscPair]
        intro ⟨h1, _⟩
        exact absurd h1 (by decide)
    have step2 : splitChar '\n' (joinChar '\n' (s :: ss)) = s :: ss :=
      splitChar_joinChar (s :: ss) (by simp) hnl
    rw [splitTextByNewlines, step1, step2]
    exact List.filter_eq_self.mpr (fun w hw => (hprop w hw).2)

/-! ## Claim C9: auto-wrap content preservation -/

/-- The head of a `dropWhile` result fails the predicate. -/
theorem dropWhile_head_false {p : Char → Bool} :
    ∀ {l x : List Char} {c : Char}, l.dropWhile p = c :: x → p c = false := by
  intro l
  induction l with
  | nil =>
    intro x c h
    simp at h
  | cons a t ih =>
    intro x c h
    rw [List.dropWhile_cons] at h
    by_cases ha : p a = true
    · rw [if_pos ha] at h
      exact ih h
    · rw [if_neg ha] at h
      cases h
      simpa using ha

/-- Restarting the collapse helper inside a whitespace run equals
collapsing after the run. -/
theorem collapseWsAux_true_eq (l : List Char) :
    collapseWsAux true l = collapseWsAux false (l.dropWhile wsChar) := by
  induction l with
  | nil => rfl
  | cons c rest ih =>
    by_cases hc : wsChar c = true
    · simp only [collapseWsAux, hc, if_true, List.dropWhile_cons, ih]
    · simp only [collapseWsAux, hc, if_false, List.dropWhile_cons,
        Bool.not_eq_true] at *
      simp [hc, collapseWsAux]

/-- Collapsing a string with a whitespace head: one space, then the
collapse of what follows the whitespace run. -/
theorem collapseWs_cons_ws {c : Char} {rest : List Char} (hc : wsChar c = true) :
    collapseWs (c :: rest) = ' ' :: collapseWs (rest.dropWhile wsChar) := by
  rw [collapseWs, collapseWs, collapseWsAux]
  simp [hc, collapseWsAux_true_eq]

/-- Collapsing a string with a non-whitespace head keeps the head. -/
theorem collapseWs_cons_nonws {c : Char} {rest : List Char}
    (hc : wsChar c = false) : collapseWs (c :: rest) = c :: collapseWs rest := by
  rw [collapseWs, collapseWs, collapseWsAux]
  simp [hc]

/-- Collapsing distributes over a whitespace-free prefix. -/
theorem collapseWs_nonws_front :
    ∀ {t d : List Char}, (∀ x ∈ t, wsChar x = false) →
      collapseWs (t ++ d) = t ++ collapseWs d := by
  intro t
  induction t with
  | nil => intro d _; rfl
  | cons a u ih =>
    intro d h
    have ha : wsChar a = false := h a (List.mem_cons_self a u)
    rw [List.cons_append, collapseWs_cons_nonws ha,
      ih (fun x hx => h x (List.mem_cons_of_mem a hx)), List.cons_append]

/-- After dropping leading whitespace, the collapse needs no left trim. -/
theorem trimLeft_collapseWs_dropWhile (l : List Char) :
    trimLeft (collapseWs (l.dropWhile wsChar)) = collapseWs (l.dropWhile wsChar) := by
  rcases h : l.dropWhile wsChar with _ | ⟨y, t⟩
  · rfl
  · have hy : wsChar y = false := dropWhile_head_false h
    rw [collapseWs_cons_nonws hy, trimLeft, List.dropWhile_cons]
    rw [if_neg (by simp [hy])]

/-- Right trim walks over a non-whitespace character. -/
theorem trimRight_cons_nonws {c : Char} {X : List Char} (hc : wsChar c = false) :
    trimRight (c :: X) = c :: trimRight X := by
  cases h : trimRight X with
  | nil => simp [trimRight, h, hc]
  | cons r rs => simp [trimRight, h]

/-- Right trim walks over any character when the tail trims non-empty. -/
theorem trimRight_cons_of_ne_nil {c : Char} {X : List Char}
    (h : trimRight X ≠ []) : trimRight (c :: X) = c :: trimRight X := by
  cases hX : trimRight X with
  | nil => exact absurd hX h
  | cons r rs => simp [trimRight, hX]

/-- Right trim deletes a whitespace head whose tail trims empty. -/
theorem trimRight_cons_ws_nil {c : Char} {X : List Char}
    (hc : wsChar c = true) (h : trimRight X = []) : trimRight (c :: X) = [] := by
  simp [trimRight, h, hc]

/-- Right trim distributes over a whitespace-free prefix. -/
theorem trimRight_nonws_front :
    ∀ {u X : List Char}, (∀ x ∈ u, wsChar x = false) →
      trimRight (u ++ X) = u ++ trimRight X := by
  intro u
  induction u with
  | nil => intro X _; rfl
  | cons a t ih =>
    intro X h
    have ha : wsChar a = false := h a (List.mem_cons_self a t)
    rw [List.cons_append, trimRight_cons_nonws ha,
      ih (fun x hx => h x (List.mem_cons_of_mem a hx)), List.cons_append]

/-- Leading whitespace does not change the runs. -/
theorem splitWsRuns_cons_ws {c : Char} {rest : List Char}
    (hc : wsChar c = true) : splitWsRuns (c :: rest) = splitWsRuns rest := by
  rw [splitWsRuns]
  simp [hc]

/-- A non-whitespace head opens a run. -/
theorem splitWsRuns_cons_nonws {c : Char} {rest : List Char}
    (hc : wsChar c = false) :
    splitWsRuns (c :: rest) =
      (c :: rest.takeWhile (fun x => !wsChar x)) ::
        splitWsRuns (rest.dropWhile (fun x => !wsChar x)) := by
  rw [splitWsRuns]
  simp [hc]

/-- Dropping leading whitespace does not change the runs. -/
theorem splitWsRuns_dropWhile (l : List Char) :
    splitWsRuns (l.dropWhile wsChar) = splitWsRuns l := by
  induction l with
  | nil => rfl
  | cons c rest ih =>
    by_cases hc : wsChar c = true
    · rw [List.dropWhile_cons, if_pos hc, ih, splitWsRuns_cons_ws hc]
    · rw [List.dropWhile_cons, if_neg hc]

/-- Every run is non-empty and whitespace-free. -/
theorem splitWsRuns_mem :
    ∀ (n : ℕ) (l : List Char), l.length ≤ n →
      ∀ r ∈ splitWsRuns l, r ≠ [] ∧ ∀ x ∈ r, wsChar x = false := by
  intro n
  induction n with
  | zero =>
    intro l hl r hr
    have : l = [] := List.length_eq_zero.mp (Nat.le_zero.mp hl)
    subst this
    simp [splitWsRuns] at hr
  | succ n ih =>
    intro l hl r hr
    cases l with
    | nil => simp [splitWsRuns] at hr
    | cons c rest =>
      rw [List.length_cons] at hl
      by_cases hc : wsChar c = true
      · rw [splitWsRuns_cons_ws hc] at hr
        exact ih rest (by omega) r hr
      · rw [splitWsRuns_cons_nonws (by simpa using hc)] at hr
        rcases List.mem_cons.mp hr with rfl | hr'
        · refine ⟨by simp, ?_⟩
          intro x hx
          rcases List.mem_cons.mp hx with rfl | hx'
          · simpa using hc
          · have := List.mem_takeWhile_imp hx'
            simpa using this
        · have hdlen := ((List.dropWhile_suffix
            (l := rest) (fun x => !wsChar x)).sublist).length_le
          exact ih (rest.dropWhile fun x => !wsChar x) (by omega) r hr'

/-- Auxiliary form of `splitWsRuns_mem` without the fuel parameter. -/
theorem splitWsRuns_mem' (l : List Char) :
    ∀ r ∈ splitWsRuns l, r ≠ [] ∧ ∀ x ∈ r, wsChar x = false :=
  splitWsRuns_mem l.length l le_rfl

/-- A joined non-empty run list is non-empty. -/
theorem joinChar_runs_ne_nil {c : Char} {r : List Char} {rs : List (List Char)}
    (hr : r ≠ []) : joinChar c (r :: rs) ≠ [] := by
  cases rs with
  | nil => simpa [joinChar] using hr
  | cons v vs =>
    rw [joinChar]
    cases r with
    | nil => exact absurd rfl hr
    | cons x xs => simp

/-- The whitespace-collapsed, end-trimmed form of a string is its
whitespace-separated runs joined by single spaces. -/
theorem trim_collapse_eq_join :
    ∀ (n : ℕ) (s : List Char), s.length ≤ n →
      trimChars (collapseWs s) = joinChar ' ' (splitWsRuns s) := by
  intro n
  induction n with
  | zero =>
    intro s hs
    have : s = [] := List.length_eq_zero.mp (Nat.le_zero.mp hs)
    subst this
    rw [splitWsRuns]
    rfl
  | succ n ih =>
    intro s hs
    cases s with
    | nil =>
      rw [splitWsRuns]
      rfl
    | cons c rest =>
      rw [List.length_cons] at hs
      by_cases hc : wsChar c = true
      · -- whitespace head: both sides ignore the leading run
        rw [collapseWs_cons_ws hc, splitWsRuns_cons_ws hc]
        rw [trimChars, trimLeft, List.dropWhile_cons, if_pos (by decide)]
        have hdlen := ((List.dropWhile_suffix (l := rest) wsChar).sublist).length_le
        have hrec := ih (rest.dropWhile wsChar) (by omega)
        rw [trimChars, trimLeft_collapseWs_dropWhile rest] at hrec
        have hid := trimLeft_collapseWs_dropWhile rest
        rw [show List.dropWhile wsChar (collapseWs (rest.dropWhile wsChar)) =
          trimLeft (collapseWs (rest.dropWhile wsChar)) from rfl, hid, hrec]
        rw [splitWsRuns_dropWhile]
      · -- run head
        have hcf : wsChar c = false := by simpa using hc
        have hrest := (List.takeWhile_append_dropWhile
          (p := fun x => !wsChar x) (l := rest)).symm
        have htfree : ∀ x ∈ rest.takeWhile (fun x => !wsChar x), wsChar x = false := by
          intro x hx
          have := List.mem_takeWhile_imp hx
          simpa using this
        rw [collapseWs_cons_nonws hcf]
        rw [show collapseWs rest = collapseWs
          (rest.takeWhile (fun x => !wsChar x) ++
            rest.dropWhile (fun x => !wsChar x)) by rw [← hrest]]
        rw [collapseWs_nonws_front htfree]
        rw [trimChars, trimLeft, List.dropWhile_cons, if_neg (by simp [hcf])]
        rw [show (c :: (rest.takeWhile (fun x => !wsChar x) ++
          collapseWs (rest.dropWhile (fun x => !wsChar x)))) =
          ((c :: rest.takeWhile (fun x => !wsChar x)) ++
          collapseWs (rest.dropWhile (fun x => !wsChar x))) from rfl]
        have hctfree : ∀ x ∈ c :: rest.takeWhile (fun x => !wsChar x),
            wsChar x = false := by
          intro x hx
          rcases List.mem_cons.mp hx with rfl | hx'
          · exact hcf
          · exact htfree x hx'
        rw [trimRight_nonws_front hctfree]
        rw [splitWsRuns_cons_nonws hcf]
        rcases hd : rest.dropWhile (fun x => !wsChar x) with _ | ⟨x, d2⟩
        · rw [show collapseWs [] = [] from rfl]
          rw [show trimRight [] = [] from rfl]
          rw [show splitWsRuns [] = [] from by rw [splitWsRuns]]
          rw [joinChar, List.append_nil]
        · have hx : wsChar x = true := by
            have := dropWhile_head_false hd
            simpa using this
          have hdlen : (x :: d2).length ≤ rest.length := by
            rw [← hd]
            exact ((List.dropWhile_suffix
              (l := rest) (fun x => !wsChar x)).sublist).length_le
          have helen := ((List.dropWhile_suffix (l := d2) wsChar).sublist).length_le
          rw [collapseWs_cons_ws hx, splitWsRuns_cons_ws hx, ← splitWsRuns_dropWhile d2]
          have hrec := ih (d2.dropWhile wsChar) (by
            rw [List.length_cons] at hdlen
            omega)
          rw [trimChars, trimLeft_collapseWs_dropWhile d2] at hrec
          rcases hre : splitWsRuns (d2.dropWhile wsChar) with _ | ⟨r, rs⟩
          · rw [hre] at hrec
            rw [trimRight_cons_ws_nil (by decide) hrec]
            rw [joinChar, List.append_nil]
          · rw [hre] at hrec
            have hrne : r ≠ [] :=
              (splitWsRuns_mem' (d2.dropWhile wsChar) r
                (by rw [hre]; exact List.mem_cons_self r rs)).1
            have hjne : joinChar ' ' (r :: rs) ≠ [] := joinChar_runs_ne_nil hrne
            rw [trimRight_cons_of_ne_nil (by rw [hrec]; exact hjne), hrec]
            rw [joinChar]

/-- Joining distributes over an append of two non-empty group lists. -/
theorem joinChar_append {c : Char} :
    ∀ {g rest : List (List Char)}, g ≠ [] → rest ≠ [] →
      joinChar c (g ++ rest) = joinChar c g ++ c :: joinChar c rest := by
  intro g
  induction g with
  | nil =>
    intro rest hg _
    exact absurd rfl hg
  | cons x g' ih =>
    intro rest hg hrest
    cases g' with
    | nil =>
      rcases rest with _ | ⟨r, rs⟩
      · exact absurd rfl hrest
      · rw [List.singleton_append, joinChar, joinChar]
    | cons y g'' =>
      rw [List.cons_append, List.cons_append, joinChar]
      rw [show (y :: (g'' ++ rest)) = ((y :: g'') ++ rest) from rfl]
      rw [ih (by simp) hrest, joinChar]
      simp [List.append_assoc]

/-- Joining the per-group joins equals joining the flattened groups. -/
theorem joinChar_map_flatten {c : Char} :
    ∀ (P : List (List (List Char))), (∀ g ∈ P, g ≠ []) →
      joinChar c (P.map (joinChar c)) = joinChar c P.flatten := by
  intro P
  induction P with
  | nil => intro _; rfl
  | cons g P' ih =>
    intro h
    cases P' with
    | nil => simp [joinChar]
    | cons g2 P'' =>
      have hg : g ≠ [] := h g (List.mem_cons_self _ _)
      have hg2 : g2 ≠ [] := h g2 (by simp)
      have hflat : (g2 :: P'').flatten ≠ [] := by
        rw [List.flatten_cons]
        rcases g2 with _ | ⟨x, xs⟩
        · exact absurd rfl hg2
        · simp
      rw [List.map_cons, List.map_cons, joinChar]
      rw [show (joinChar c g2 :: List.map (joinChar c) P'') =
        ((g2 :: P'').map (joinChar c)) from rfl]
      rw [show (g :: g2 :: P'').flatten = g ++ (g2 :: P'').flatten from
        List.flatten_cons]
      rw [joinChar_append hg hflat]
      rw [ih (fun x hx => h x (List.mem_cons_of_mem _ hx))]

/-- The wrap loop only appends to the accumulated line list. -/
theorem autoWrapGo_append (m : List Char → ℚ) (maxW : ℚ) :
    ∀ (ws lines : List (List Char)) (cur : List Char),
      autoWrapGo m maxW ws lines cur = lines ++ autoWrapGo m maxW ws [] cur := by
  intro ws
  induction ws with
  | nil =>
    intro lines cur
    rw [autoWrapGo, autoWrapGo]
    split
    · simp
    · simp
  | cons w ws ih =>
    intro lines cur
    simp only [autoWrapGo]
    by_cases hemp : cur.isEmpty = true
    · rw [if_pos hemp, if_pos hemp]
      split
      · exact ih lines w
      · rw [ih (lines ++ [w]) [], ih ([] ++ [w]) []]
        simp [List.append_assoc]
    · rw [if_neg hemp, if_neg hemp]
      split
      · exact ih lines _
      · rw [ih (lines ++ [cur]) w, ih ([] ++ [cur]) w]
        simp [List.append_assoc]

/-- The greedy wrap loop partitions its word list: starting from an
empty line list and a current line holding the words `gcur`, it returns
the joins of a partition whose concatenation is exactly `gcur` followed
by the remaining words, with every group non-empty. -/
theorem autoWrapGo_partition (m : List Char → ℚ) (maxW : ℚ) :
    ∀ (ws gcur : List (List Char)),
      (∀ w ∈ ws, w ≠ [] ∧ ' ' ∉ w) →
      (∀ w ∈ gcur, w ≠ [] ∧ ' ' ∉ w) →
      ∃ P : List (List (List Char)),
        autoWrapGo m maxW ws [] (joinChar ' ' gcur) = P.map (joinChar ' ') ∧
        P.flatten = gcur ++ ws ∧
        ∀ g ∈ P, g ≠ [] ∧ ∀ w ∈ g, w ≠ [] ∧ ' ' ∉ w := by
  intro ws
  induction ws with
  | nil =>
    intro gcur hws hg
    rcases gcur with _ | ⟨g0, gs⟩
    · refine ⟨[], ?_, by simp, by simp⟩
      rw [joinChar, autoWrapGo]
      simp
    · have hne : joinChar ' ' (g0 :: gs) ≠ [] :=
        joinChar_runs_ne_nil (hg g0 (List.mem_cons_self _ _)).1
      refine ⟨[g0 :: gs], ?_, by simp, ?_⟩
      · rw [autoWrapGo, if_neg (by simpa using hne)]
        simp [joinChar]
      · intro g hgmem
        rw [List.mem_singleton] at hgmem
        subst hgmem
        exact ⟨by simp, hg⟩
  | cons w ws ih =>
    intro gcur hws hg
    have hwprop := hws w (List.mem_cons_self _ _)
    have hws' : ∀ x ∈ ws, x ≠ [] ∧ ' ' ∉ x :=
      fun x hx => hws x (List.mem_cons_of_mem _ hx)
    have hwsingle : ∀ x ∈ [w], x ≠ [] ∧ ' ' ∉ x := by
      intro x hx
      rw [List.mem_singleton] at hx
      subst hx
      exact hwprop
    rcases gcur with _ | ⟨g0, gs⟩
    · have hgoal : autoWrapGo m maxW (w :: ws) [] (joinChar ' ' []) =
          if m w ≤ maxW then autoWrapGo m maxW ws [] w
          else autoWrapGo m maxW ws [w] [] := rfl
      rw [hgoal]
      split
      · rename_i hcand
        obtain ⟨P, h1, h2, h3⟩ := ih [w] hws' hwsingle
        rw [joinChar] at h1
        exact ⟨P, h1, by rw [h2]; simp, h3⟩
      · obtain ⟨P, h1, h2, h3⟩ := ih [] hws' (by simp)
        rw [joinChar] at h1
        refine ⟨[w] :: P, ?_, ?_, ?_⟩
        · rw [autoWrapGo_append m maxW ws [w] [], h1]
          simp [joinChar]
        · rw [List.flatten_cons, h2]
          simp
        · intro g hgmem
          rcases List.mem_cons.mp hgmem with rfl | hgmem'
          · exact ⟨by simp, hwsingle⟩
          · exact h3 g hgmem'
    · have hgne : joinChar ' ' (g0 :: gs) ≠ [] :=
        joinChar_runs_ne_nil (hg g0 (List.mem_cons_self _ _)).1
      have hemp : (joinChar ' ' (g0 :: gs)).isEmpty = false := by
        rcases hJ : joinChar ' ' (g0 :: gs) with _ | ⟨j, js⟩
        · exact absurd hJ hgne
        · simp
      have hgoal : autoWrapGo m maxW (w :: ws) [] (joinChar ' ' (g0 :: gs)) =
          if m (joinChar ' ' (g0 :: gs) ++ ' ' :: w) ≤ maxW
          then autoWrapGo m maxW ws [] (joinChar ' ' (g0 :: gs) ++ ' ' :: w)
          else autoWrapGo m maxW ws [joinChar ' ' (g0 :: gs)] w := by
        simp only [autoWrapGo, hemp]
        simp
      rw [hgoal]
      rw [show joinChar ' ' (g0 :: gs) ++ ' ' :: w =
        joinChar ' ' ((g0 :: gs) ++ [w]) from
        (@joinChar_append ' ' (g0 :: gs) [w] (by simp) (by simp)).symm]
      split
      · rename_i hcand
        obtain ⟨P, h1, h2, h3⟩ := ih ((g0 :: gs) ++ [w]) hws' (by
          intro x hx
          rcases List.mem_append.mp hx with hx' | hx'
          · exact hg x hx'
          · rw [List.mem_singleton] at hx'
            subst hx'
            exact hwprop)
        refine ⟨P, h1, ?_, h3⟩
        rw [h2]
        simp [List.append_assoc]
      · obtain ⟨P, h1, h2, h3⟩ := ih [w] hws' hwsingle
        rw [joinChar] at h1
        refine ⟨(g0 :: gs) :: P, ?_, ?_, ?_⟩
        · rw [autoWrapGo_append m maxW ws [joinChar ' ' (g0 :: gs)] w, h1]
          simp
        · rw [List.flatten_cons, h2]
          simp [List.append_assoc]
        · intro g hgmem
          rcases List.mem_cons.mp hgmem with rfl | hgmem'
          · exact ⟨by simp, hg⟩
          · exact h3 g hgmem'

/-- A join of a non-empty group of non-empty, space-free words is
non-empty and has non-space first and last characters. -/
theorem joinChar_group_bounds :
    ∀ (g : List (List Char)), g ≠ [] → (∀ w ∈ g, w ≠ [] ∧ ' ' ∉ w) →
      joinChar ' ' g ≠ [] ∧ (joinChar ' ' g).head? ≠ some ' ' ∧
        (joinChar ' ' g).getLast? ≠ some ' ' := by
  intro g
  induction g with
  | nil =>
    intro h _
    exact absurd rfl h
  | cons w g' ih =>
    intro _ h
    have hw := h w (List.mem_cons_self _ _)
    cases g' with
    | nil =>
      rw [joinChar]
      refine ⟨hw.1, ?_, ?_⟩
      · intro hh
        exact hw.2 (List.mem_of_mem_head? (Option.mem_def.mpr hh))
      · intro hh
        exact hw.2 (List.mem_of_mem_getLast? (Option.mem_def.mpr hh))
    | cons v g'' =>
      have hvne : v ≠ [] := (h v (by simp)).1
      have hJne : joinChar ' ' (v :: g'') ≠ [] := joinChar_runs_ne_nil hvne
      obtain ⟨ih1, ih2, ih3⟩ := ih (by simp)
        (fun x hx => h x (List.mem_cons_of_mem _ hx))
      rw [joinChar]
      rcases hwshape : w with _ | ⟨x, xs⟩
      · exact absurd hwshape hw.1
      · refine ⟨by simp, ?_, ?_⟩
        · rw [List.cons_append, List.head?_cons]
          intro hh
          rw [Option.some_inj] at hh
          subst hh
          exact hw.2 (hwshape ▸ List.mem_cons_self _ _)
        · rw [List.getLast?_append]
          have hlast : (' ' :: joinChar ' ' (v :: g'')).getLast? =
              (joinChar ' ' (v :: g'')).getLast? := by
            rcases hJ : joinChar ' ' (v :: g'') with _ | ⟨j, js⟩
            · exact absurd hJ hJne
            · rw [List.getLast?_cons_cons]
          rw [hlast]
          rcases hJL : (joinChar ' ' (v :: g'')).getLast? with _ | y
          · rcases hJ : joinChar ' ' (v :: g'') with _ | ⟨j, js⟩
            · exact absurd hJ hJne
            · rw [hJ] at hJL
              simp [List.getLast?_cons] at hJL
          · rw [Option.or_some]
            rw [hJL] at ih3
            exact ih3

/-- C9: the auto-wrap splitter preserves content.  Joining its lines
with single spaces reproduces the whitespace-normalised, end-trimmed
input; the lines are the joins of a partition of the input's
whitespace-separated words (so no word is split, dropped, duplicated or
reordered); and no line is empty or carries a leading or trailing
space. -/
theorem c9_autoWrapContentPreserving (m : List Char → ℚ) (cfg : StyleConfig)
    (raw : List Char) :
    joinChar ' ' (autoWrapLines m cfg raw) = normalizeWs raw ∧
    (∃ P : List (List (List Char)),
      autoWrapLines m cfg raw = P.map (joinChar ' ') ∧
      P.flatten = splitWsRuns ((replaceEscapes raw).map nlToSpace) ∧
      ∀ g ∈ P, g ≠ []) ∧
    ∀ line ∈ autoWrapLines m cfg raw,
      line ≠ [] ∧ line.head? ≠ some ' ' ∧ line.getLast? ≠ some ' ' := by
  have hnorm : normalizeWs raw =
      joinChar ' ' (splitWsRuns ((replaceEscapes raw).map nlToSpace)) := by
    rw [normalizeWs]
    exact trim_collapse_eq_join ((replaceEscapes raw).map nlToSpace).length _ le_rfl
  simp only [autoWrapLines]
  by_cases hempty : (normalizeWs raw).isEmpty = true
  · rw [if_pos hempty]
    have hnil : normalizeWs raw = [] := by simpa using hempty
    have hruns : splitWsRuns ((replaceEscapes raw).map nlToSpace) = [] := by
      rcases hr : splitWsRuns ((replaceEscapes raw).map nlToSpace) with _ | ⟨r, rs⟩
      · rfl
      · have hrne := (splitWsRuns_mem' ((replaceEscapes raw).map nlToSpace) r
          (by rw [hr]; exact List.mem_cons_self r rs)).1
        have hjoin := @joinChar_runs_ne_nil ' ' r rs hrne
        rw [hr] at hnorm
        rw [hnil] at hnorm
        exact absurd hnorm.symm hjoin
    refine ⟨by rw [hnil]; rfl, ⟨[], by simp, by rw [hruns]; simp, by simp⟩, ?_⟩
    intro line hline
    simp at hline
  · rw [if_neg hempty]
    have hne : normalizeWs raw ≠ [] := by simpa using hempty
    have hruns_ne : splitWsRuns ((replaceEscapes raw).map nlToSpace) ≠ [] := by
      intro h0
      rw [h0] at hnorm
      exact hne (by rw [hnorm]; rfl)
    have hwords_props : ∀ r ∈ splitWsRuns ((replaceEscapes raw).map nlToSpace),
        r ≠ [] ∧ ' ' ∉ r := by
      intro r hr
      obtain ⟨h1, h2⟩ := splitWsRuns_mem' ((replaceEscapes raw).map nlToSpace) r hr
      refine ⟨h1, fun hsp => ?_⟩
      have := h2 ' ' hsp
      simp [wsChar] at this
    have hsplit : splitChar ' ' (normalizeWs raw) =
        splitWsRuns ((replaceEscapes raw).map nlToSpace) := by
      rw [hnorm]
      exact splitChar_joinChar _ hruns_ne (fun r hr => (hwords_props r hr).2)
    rw [hsplit]
    obtain ⟨P, h1, h2, h3⟩ := autoWrapGo_partition m (autoMaxTextWidth cfg)
      (splitWsRuns ((replaceEscapes raw).map nlToSpace)) [] hwords_props (by simp)
    rw [joinChar] at h1
    refine ⟨?_, ⟨P, h1, h2, fun g hg => (h3 g hg).1⟩, ?_⟩
    · rw [h1, joinChar_map_flatten P (fun g hg => (h3 g hg).1), h2,
        List.nil_append, ← hnorm]
    · intro line hline
      rw [h1] at hline
      obtain ⟨g, hgmem, rfl⟩ := List.mem_map.mp hline
      exact joinChar_group_bounds g (h3 g hgmem).1 (h3 g hgmem).2

/-- Witness for C9 on a concrete caption with irregular whitespace. -/
theorem c9_autoWrapContentPreserving_witness :
    "hey there".toList ∈
      autoWrapLines charLen defaultConfig "  hey   there ".toList ∧
    "hey there".toList ≠ [] ∧
    joinChar ' ' (autoWrapLines charLen defaultConfig "  hey   there ".toList) =
      normalizeWs "  hey   there ".toList :=
  ⟨by with_unfolding_all decide,
    ((c9_autoWrapContentPreserving charLen defaultConfig
      "  hey   there ".toList).2.2 "hey there".toList
      (by with_unfolding_all decide)).1,
    (c9_autoWrapContentPreserving charLen defaultConfig
      "  hey   there ".toList).1⟩
